import Mathlib

/-!
Shallow embedding of the document-scanner core (rule-based parser,
OCR token index, quality gate, review/edit/confirm loop) and proofs
about it.

Conventions used throughout the embedding:
* Python strings are Lean `String`s; every Python string primitive the
  code uses (`strip`, `lower`, `upper`, `endswith`, substring `in`,
  `isupper`, `int(...)`) is re-implemented on the character list so that
  all definitions reduce in the kernel.
* A Python dict with string keys is an association list with unique
  keys in insertion order (`PyDict`, `ExtractedData`).
* The OCR data dictionary of parallel lists (`text[i]`, `left[i]`, ...)
  is embedded as a single list of `Tok` records; every access in the
  source reads the i-th entry of each parallel list, which is exactly
  the i-th `Tok`.
* EasyOCR raw confidences (floats in [0,1]) are embedded as rationals;
  `int(conf * 100)` is truncation toward zero of the exact product.
* Interactive `input()` calls are embedded by threading a list of the
  operator's input lines; an exhausted list models a session that blocks
  forever (no result, no save).
-/

/-! ### Python string primitives -/

/-- The six whitespace characters stripped by Python's `str.strip()`. -/
def pySpaceChar (c : Char) : Bool :=
  c = ' ' || c = '\t' || c = '\n' || c = '\r' || c = '\x0b' || c = '\x0c'

/-- Python `str.strip()`: remove leading and trailing whitespace. -/
def pyStrip (s : String) : String :=
  ⟨((s.data.dropWhile pySpaceChar).reverse.dropWhile pySpaceChar).reverse⟩

/-- Python `str.lower()` (ASCII range, as used by the source). -/
def pyLower (s : String) : String := ⟨s.data.map Char.toLower⟩

/-- Python `str.upper()` (ASCII range, as used by the source). -/
def pyUpper (s : String) : String := ⟨s.data.map Char.toUpper⟩

/-- Python `text.endswith(":")`. -/
def pyEndsWithColon (s : String) : Bool :=
  match s.data.getLast? with
  | some c => c = ':'
  | none => false

/-- Helper for Python's substring test: does `needle` occur as a
contiguous run inside `hay`? -/
def subOccurs (needle : List Char) : List Char → Bool
  | [] => needle.isEmpty
  | c :: rest => needle.isPrefixOf (c :: rest) || subOccurs needle rest

/-- Python `needle in hay` on strings (contiguous substring test). -/
def strContains (hay needle : String) : Bool :=
  subOccurs needle.data hay.data

/-- Python `str.isupper()`: at least one cased character and every cased
character is upper-case (ASCII letters are the cased characters here). -/
def pyIsUpper (s : String) : Bool :=
  s.data.any Char.isAlpha && s.data.all (fun c => !c.isAlpha || c.isUpper)

/-- Digit run with the single-underscore-separators CPython's `int()`
accepts: no leading/trailing/doubled underscore. The head character is
checked by the caller. -/
def pyDigitsOk : List Char → Bool
  | [] => true
  | c :: rest =>
    if c = '_' then
      match rest with
      | [] => false
      | d :: _ => d.isDigit && pyDigitsOk rest
    else c.isDigit && pyDigitsOk rest

/-- Parse an unsigned decimal literal the way CPython's `int()` does
(digits, optional single underscores between digits). -/
def pyParseNat : List Char → Option Nat
  | [] => none
  | c :: rest =>
    if c.isDigit && pyDigitsOk (c :: rest) then
      some (((c :: rest).filter (fun x => x ≠ '_')).foldl
        (fun a d => a * 10 + (d.toNat - 48)) 0)
    else none

/-- Python `int(s)` on an already-stripped string: optional sign then a
decimal literal; `none` models the `ValueError` branch. -/
def pyInt (s : String) : Option Int :=
  match s.data with
  | '+' :: rest => (pyParseNat rest).map (fun n => (n : Int))
  | '-' :: rest => (pyParseNat rest).map (fun n => -(n : Int))
  | cs => (pyParseNat cs).map (fun n => (n : Int))

/-- Lexicographic code-point comparison, Python's `<` on strings. -/
def charListLt : List Char → List Char → Bool
  | [], [] => false
  | [], _ :: _ => true
  | _ :: _, [] => false
  | a :: as, b :: bs => decide (a < b) || (decide (a = b) && charListLt as bs)

/-- Python string `<` (used by `sorted` on the field names). -/
def strLt (a b : String) : Bool := charListLt a.data b.data

/-- The apostrophe character, used inside two label keywords. -/
def apos : String := ⟨[Char.ofNat 39]⟩

/-! ### Python dicts as association lists -/

/-- A Python value stored in a field dict: the source stores strings
(`"value"`) and ints (`"confidence"`); `vbool` exists so that the
spec's claimed boolean `edited` flag is expressible. -/
inductive PyVal where
  | vstr (s : String)
  | vint (n : Int)
  | vbool (b : Bool)
deriving DecidableEq

/-- A Python dict with string keys, in insertion order. -/
abbrev PyDict := List (String × PyVal)

/-- Python `d.get(k)` / `d[k]`. -/
def dictGet (d : PyDict) (k : String) : Option PyVal :=
  (d.find? (fun p => p.1 = k)).map Prod.snd

/-- Python `d[k] = v`: replace in place if the key exists, else append. -/
def dictSet (d : PyDict) (k : String) (v : PyVal) : PyDict :=
  if d.any (fun p => p.1 = k) then
    d.map (fun p => if p.1 = k then (k, v) else p)
  else d ++ [(k, v)]

/-- The extracted-fields dict: canonical field name ↦ field dict. -/
abbrev ExtractedData := List (String × PyDict)

/-- Lookup of a field by name in an `ExtractedData` dict. -/
def edGet (d : ExtractedData) (k : String) : Option PyDict :=
  (d.find? (fun p => p.1 = k)).map Prod.snd

/-- Stable insertion into an already-processed prefix: the new element
goes after every element `b` with `le b a` (in particular after all
elements equal to it), which is exactly the placement a stable sort
gives it. -/
def pyInsertSorted {α : Type} (le : α → α → Bool) (a : α) : List α → List α
  | [] => [a]
  | b :: bs => if le b a then b :: pyInsertSorted le a bs else a :: b :: bs

/-- Python's stable ascending `list.sort` / `sorted` for a total
preorder `le`, as a structural (kernel-reducible) stable sort. -/
def pySort {α : Type} (le : α → α → Bool) (l : List α) : List α :=
  l.foldl (fun acc a => pyInsertSorted le a acc) []

/-! ### Tokens and OCR extraction (`ocr.py`) -/

/-- One OCR token: text plus bounding box plus confidence, the i-th
entry of the parallel lists in `ocr_data`. -/
structure Tok where
  text : String
  left : Int
  top : Int
  width : Int
  height : Int
  confidence : Int
deriving DecidableEq

instance : Inhabited Tok := ⟨⟨"", 0, 0, 0, 0, 0⟩⟩

/-- One raw EasyOCR detection: corner points, text, confidence in [0,1]. -/
structure RawFrag where
  bbox : List (Int × Int)
  text : String
  conf : ℚ

/-- Python `min` over a list of ints (the source only calls it on the
four corner coordinates, which are never empty). -/
def listMinI : List Int → Int
  | [] => 0
  | x :: xs => xs.foldl min x

/-- Python `max` over a list of ints. -/
def listMaxI : List Int → Int
  | [] => 0
  | x :: xs => xs.foldl max x

/-- Python `int(q * 100)` for an exact rational `q`: truncation toward
zero of `q * 100`, computed as `(q.num * 100) tdiv q.den`. -/
def pyTrunc100 (q : ℚ) : Int := (q.num * 100).tdiv q.den

/-- `extract_ocr_data`'s per-fragment step: strip the text, take the
axis-aligned box of the corner minima/maxima, scale confidence to 0-100. -/
def mkDetection (f : RawFrag) : Tok :=
  { text := pyStrip f.text
    left := listMinI (f.bbox.map Prod.fst)
    top := listMinI (f.bbox.map Prod.snd)
    width := listMaxI (f.bbox.map Prod.fst) - listMinI (f.bbox.map Prod.fst)
    height := listMaxI (f.bbox.map Prod.snd) - listMinI (f.bbox.map Prod.snd)
    confidence := pyTrunc100 f.conf }

/-- The `(top, left)` sort key order used by `all_detections.sort`. -/
def tokLe (a b : Tok) : Bool :=
  decide (a.top < b.top) || (decide (a.top = b.top) && decide (a.left ≤ b.left))

/-- `OCRExtractor.extract_ocr_data`: map fragments to detections, sort
by `(top, left)`, drop empty-text or non-positive-confidence entries. -/
def extract_ocr_data (results : List RawFrag) : List Tok :=
  if results.isEmpty then []
  else
    (pySort tokLe (results.map mkDetection)).filter
      (fun d => decide (0 < d.confidence) && decide (d.text ≠ ""))

/-- `OCRExtractor.get_average_confidence`: 0 for no data, else the
arithmetic mean `sum / length` (`np.mean`), as an exact rational. -/
def get_average_confidence (confs : List Int) : ℚ :=
  if confs.length = 0 then 0 else mkRat confs.sum confs.length

/-- The quality gate in `run_complete_pipeline`: the batch is rejected
exactly when `avg_confidence < OCR_CONFIDENCE_THRESHOLD`. -/
def quality_gate_rejects (confs : List Int) (threshold : ℚ) : Bool :=
  decide (get_average_confidence confs < threshold)

/-! ### Rule-based parser (`parser_rule_based.py`) -/

/-- `RuleBasedParser.FIELD_LABELS`. -/
def FIELD_LABELS : List (String × List String) :=
  [("Student Name", ["student", "name", "student name", "full name"]),
   ("Father Name", ["father", "father name", "father" ++ apos ++ "s name"]),
   ("Mother Name", ["mother", "mother name", "mother" ++ apos ++ "s name"]),
   ("Home Address", ["address", "home", "home address", "postal address"]),
   ("School", ["school", "institution", "college"]),
   ("Contact", ["contact", "phone", "mobile", "number", "telephone"]),
   ("Email", ["email", "e-mail", "email address"]),
   ("Date", ["date", "dob", "birth"]),
   ("Roll Number", ["roll", "enrollment", "roll number", "id"]),
   ("Marks", ["marks", "score", "points", "percentage"]),
   ("Group", ["group", "class", "section"]),
   ("City", ["city", "town"]),
   ("Province", ["province", "state", "district"])]

/-- `self.all_label_keywords`: every keyword, lower-cased (membership in
the Python set is membership in this list). -/
def all_label_keywords : List String :=
  (FIELD_LABELS.map Prod.snd).flatten.map pyLower

/-- `RuleBasedParser._is_label_text`. -/
def is_label_text (text : String) : Bool :=
  pyEndsWithColon text ||
    all_label_keywords.contains (pyLower text) ||
    (decide (text.length < 15) && pyIsUpper text)

/-- Allowed characters of the name regex: letters, whitespace, hyphen,
apostrophe. -/
def nameChar (c : Char) : Bool :=
  c.isAlpha || pySpaceChar c || c = '-' || c = Char.ofNat 39

/-- Allowed characters of the phone regex: digits, whitespace, hyphen,
plus sign, parentheses. -/
def contactChar (c : Char) : Bool :=
  c.isDigit || pySpaceChar c || c = '-' || c = '+' || c = '(' || c = ')'

/-- Allowed characters of the marks regex: digits, decimal point,
percent sign, whitespace. -/
def marksChar (c : Char) : Bool :=
  c.isDigit || c = '.' || c = '%' || pySpaceChar c

/-- A date separator: hyphen, slash or dot. -/
def isDateSep (c : Char) : Bool := c = '-' || c = '/' || c = '.'

/-- Drop exactly `n` digit characters, or fail. -/
def dropDigits : Nat → List Char → Option (List Char)
  | 0, cs => some cs
  | _ + 1, [] => none
  | n + 1, c :: cs => if c.isDigit then dropDigits n cs else none

/-- Match one to four digits at the current position. -/
def dateTailDigits (cs : List Char) : Bool :=
  [1, 2, 3, 4].any fun a => (dropDigits a cs).isSome

/-- Match the date pattern (1-4 digits, separator, 1-2 digits,
separator, 1-4 digits) starting at the current position, with the
backtracking-existence semantics of the regex engine. -/
def dateMatchAt (cs : List Char) : Bool :=
  [1, 2, 3, 4].any fun a =>
    match dropDigits a cs with
    | some (s1 :: cs1) =>
      isDateSep s1 && ([1, 2].any fun b =>
        match dropDigits b cs1 with
        | some (s2 :: cs2) => isDateSep s2 && dateTailDigits cs2
        | _ => false)
    | _ => false

/-- `re.search` of the date pattern: a match starting at some position. -/
def dateSearch : List Char → Bool
  | [] => false
  | c :: cs => dateMatchAt (c :: cs) || dateSearch cs

/-- `RuleBasedParser._validate_value`, branch for branch. -/
def validate_value (text : String) (field_type : String) : Bool :=
  if pyStrip text = "" then false
  else if (pyStrip text).length < 2 then false
  else if strContains field_type "Name" then
    (!text.data.isEmpty && text.data.all nameChar) && decide (2 < text.length)
  else if ["contact", "phone", "mobile", "number"].any
      (fun x => strContains (pyLower field_type) x) then
    (!text.data.isEmpty && text.data.all contactChar) &&
      decide (7 ≤ text.data.countP (fun c => c.isDigit))
  else if strContains field_type "Email" then
    strContains text "@" && strContains text "."
  else if strContains field_type "Date" || strContains field_type "Birth" then
    dateSearch text.data
  else if strContains field_type "Marks" || strContains field_type "Score" ||
      strContains field_type "Percentage" then
    (!text.data.isEmpty && text.data.all marksChar) &&
      decide (1 ≤ text.data.countP (fun c => c.isDigit))
  else if ["Address", "City", "School", "Group"].any
      (fun x => strContains field_type x) then
    decide (1 < (pyStrip text).length)
  else
    !text.data.isEmpty && text.data.any (fun c => c.isAlphanum)

/-- First index (from `s`) whose element satisfies `p`, with the element:
the `for i, text in enumerate(...)` scan with early `return`/`break`. -/
def scanFrom {α : Type} (p : Nat → α → Bool) : Nat → List α → Option (Nat × α)
  | _, [] => none
  | i, t :: ts => if p i t then some (i, t) else scanFrom p (i + 1) ts

/-- The acceptance test of `_find_label` for one token: some keyword is
a substring of the lowered text, and the text looks like a label. -/
def labelHit (kws : List String) (t : Tok) : Bool :=
  kws.any (fun kw => strContains (pyLower t.text) kw) && is_label_text t.text

/-- `RuleBasedParser._find_label`. -/
def find_label (kws : List String) (toks : List Tok) : Option Nat :=
  (scanFrom (fun _ t => labelHit kws t) 0 toks).map Prod.fst

/-- The candidate test of `_find_field_value`'s scan loop over token `i`:
not the label itself, same line within 15 px, at least 120 px right of
the label's right edge, not label-like, and type-valid. -/
def candPred (field_name : String) (li : Nat) (lab : Tok) (i : Nat) (t : Tok) : Bool :=
  decide (i ≠ li) && decide ((t.top - lab.top).natAbs ≤ 15) &&
    decide (lab.left + lab.width + 120 ≤ t.left) &&
    !is_label_text t.text && validate_value t.text field_name

/-- The `{"value": ..., "confidence": ...}` dict built for a winner. -/
def mkFieldDict (t : Tok) : PyDict :=
  [("value", PyVal.vstr t.text), ("confidence", PyVal.vint t.confidence)]

/-- The value-association scan of `_find_field_value`, given the located
label index: first qualifying token in index order wins. -/
def associate (field_name : String) (toks : List Tok) (li : Nat) : Option PyDict :=
  (scanFrom (candPred field_name li (toks.getD li default)) 0 toks).map
    (fun r => mkFieldDict r.2)

/-- `RuleBasedParser._find_field_value`. -/
def find_field_value (field_name : String) (kws : List String)
    (toks : List Tok) : Option PyDict :=
  (find_label kws toks).bind (fun li => associate field_name toks li)

/-- The `for field_name, label_keywords in self.FIELD_LABELS.items()`
loop of `parse`, over an arbitrary catalog. -/
def parseCat (cat : List (String × List String)) (toks : List Tok) : ExtractedData :=
  cat.filterMap (fun p => (find_field_value p.1 p.2 toks).map (fun fd => (p.1, fd)))

/-- `RuleBasedParser.parse`. -/
def parse (toks : List Tok) : ExtractedData :=
  if toks.isEmpty then [] else parseCat FIELD_LABELS toks

/-! ### Review loop (`review.py` and step 5-7 of `main.py`) -/

/-- Ascending key order for `sorted(extracted_data.items())` (keys are
unique, so tuple comparison only ever compares the names). -/
def fieldLe (a b : String × PyDict) : Bool := !(strLt b.1 a.1)

/-- `sorted(updated_data.items())`: stable ascending sort by field name. -/
def sortedFields (d : ExtractedData) : List (String × PyDict) :=
  pySort fieldLe d

/-- One accepted field edit: select the `idx`-th name-sorted field, strip
the replacement; if non-empty, set its `value` and pin `confidence` to
100, else leave everything unchanged (the `Enter to skip` branch). -/
def editApply (data : ExtractedData) (idx : Nat) (rawValue : String) : ExtractedData :=
  if pyStrip rawValue = "" then data
  else
    data.map (fun p =>
      if p.1 = ((sortedFields data).getD idx ("", [])).1 then
        (p.1, dictSet (dictSet p.2 "value" (PyVal.vstr (pyStrip rawValue)))
          "confidence" (PyVal.vint 100))
      else p)

/-- `FieldReviewer.get_field_edits`: the edit-mode loop, consuming the
operator's input lines one prompt at a time. `none` models a session
blocked forever on an exhausted input list. -/
def get_field_edits_loop : ExtractedData → List String → Option (ExtractedData × List String)
  | _, [] => none
  | data, choiceRaw :: rest =>
    if pyLower (pyStrip choiceRaw) = "done" ||
        pyStrip choiceRaw = toString ((sortedFields data).length + 1) then
      some (data, rest)
    else
      match pyInt (pyStrip choiceRaw) with
      | none => get_field_edits_loop data rest
      | some v =>
        if 0 ≤ v - 1 ∧ v - 1 < ((sortedFields data).length : Int) then
          match rest with
          | [] => none
          | nvRaw :: rest2 => get_field_edits_loop (editApply data (v - 1).toNat nvRaw) rest2
        else get_field_edits_loop data rest

/-- `FieldReviewer.get_user_confirmation`: re-prompt until the stripped,
upper-cased input is `A`, `E` or `C`. -/
def get_user_confirmation : List String → Option (String × List String)
  | [] => none
  | s :: rest =>
    if pyUpper (pyStrip s) = "A" then some ("accept", rest)
    else if pyUpper (pyStrip s) = "E" then some ("edit", rest)
    else if pyUpper (pyStrip s) = "C" then some ("cancel", rest)
    else get_user_confirmation rest

/-- Observable events of the pipeline tail: the outcome of each review
prompt, and an invocation of `DataSaver.save` with its payload. -/
inductive PEvent where
  | reviewChoice (c : String)
  | saveInvoked (d : ExtractedData)
deriving DecidableEq

theorem get_user_confirmation_length {inputs : List String} {c : String}
    {rest : List String} (h : get_user_confirmation inputs = some (c, rest)) :
    rest.length < inputs.length := by
  induction inputs with
  | nil => simp [get_user_confirmation] at h
  | cons s tl ih =>
    by_cases h1 : pyUpper (pyStrip s) = "A"
    · simp [get_user_confirmation, h1] at h
      simp [← h.2]
    · by_cases h2 : pyUpper (pyStrip s) = "E"
      · simp [get_user_confirmation, h1, h2] at h
        simp [← h.2]
      · by_cases h3 : pyUpper (pyStrip s) = "C"
        · simp [get_user_confirmation, h1, h2, h3] at h
          simp [← h.2]
        · simp [get_user_confirmation, h1, h2, h3] at h
          have := ih h
          simp
          omega

theorem get_field_edits_loop_length :
    ∀ (data : ExtractedData) (l : List String) (d : ExtractedData) (rest : List String),
      get_field_edits_loop data l = some (d, rest) → rest.length ≤ l.length := by
  intro data l
  induction data, l using get_field_edits_loop.induct with
  | case1 data =>
    intro d rest h
    simp [get_field_edits_loop] at h
  | case2 data choiceRaw tl hdone =>
    intro d rest h
    rw [get_field_edits_loop, if_pos hdone] at h
    simp at h
    simp [← h.2]
  | case3 data choiceRaw tl hdone hv ih =>
    intro d rest h
    rw [get_field_edits_loop, if_neg hdone, hv] at h
    have := ih d rest h
    simp; omega
  | case4 data choiceRaw hdone v hv hr =>
    intro d rest h
    rw [get_field_edits_loop, if_neg hdone, hv] at h
    simp [hr] at h
  | case5 data choiceRaw hdone v hv hr nvRaw rest2 ih =>
    intro d rest h
    rw [get_field_edits_loop, if_neg hdone, hv] at h
    simp only [hr, and_self, if_true, if_pos] at h
    have := ih d rest h
    simp; omega
  | case6 data choiceRaw tl hdone v hv hr ih =>
    intro d rest h
    rw [get_field_edits_loop, if_neg hdone, hv] at h
    simp only [hr, if_neg, if_false] at h
    have := ih d rest h
    simp; omega

/-- The review loop of `run_complete_pipeline` (step 5): display, ask
for Accept/Edit/Cancel, loop through edits, stop on Accept or Cancel.
Returns the data handed onward (plus remaining input) and the trace of
review-prompt outcomes. -/
def review_phase (data : ExtractedData) (inputs : List String) :
    Option (ExtractedData × List String) × List PEvent :=
  match h : get_user_confirmation inputs with
  | none => (none, [])
  | some (c, rest) =>
    if c = "accept" then (some (data, rest), [PEvent.reviewChoice "accept"])
    else if c = "edit" then
      match h2 : get_field_edits_loop data rest with
      | none => (none, [PEvent.reviewChoice "edit"])
      | some (d2, rest2) =>
        match review_phase d2 rest2 with
        | (res, evs) => (res, PEvent.reviewChoice "edit" :: evs)
    else if c = "cancel" then (none, [PEvent.reviewChoice "cancel"])
    else (none, [])
termination_by inputs.length
decreasing_by
  have ha := get_user_confirmation_length h
  have hb := get_field_edits_loop_length _ _ _ _ h2
  omega

/-- `FieldReviewer.get_output_format`: re-prompt until 1/2/3/0. -/
def get_output_format : List String → Option (Option String × List String)
  | [] => none
  | s :: rest =>
    if pyStrip s = "1" then some (some "excel", rest)
    else if pyStrip s = "2" then some (some "json", rest)
    else if pyStrip s = "3" then some (some "csv", rest)
    else if pyStrip s = "0" then some (none, rest)
    else get_output_format rest

/-- Steps 5-7 of `run_complete_pipeline`: review loop, then output
format selection (cancel possible), then the filename prompt, then the
single `self.saver.save(extracted_data, ...)` call, recorded as a
`saveInvoked` event. -/
def pipeline_after_review (data : ExtractedData) (inputs : List String) : List PEvent :=
  match review_phase data inputs with
  | (none, evs) => evs
  | (some (d, rest), evs) =>
    match get_output_format rest with
    | none => evs
    | some (none, _) => evs
    | some (some _, rest2) =>
      match rest2 with
      | [] => evs
      | _ :: _ => evs ++ [PEvent.saveInvoked d]

/-! ### Concrete sample data used by the example-scenario claims -/

/-- The token list of spec example scenario 1. -/
def toksExample : List Tok :=
  [⟨"Student", 10, 10, 60, 20, 90⟩, ⟨"Name:", 75, 10, 55, 20, 88⟩,
   ⟨"John", 400, 12, 60, 20, 95⟩, ⟨"Doe", 470, 12, 50, 20, 93⟩]

/-- A token list with a Contact label and a five-digit candidate. -/
def toksContact : List Tok :=
  [⟨"Contact:", 10, 10, 70, 20, 90⟩, ⟨"555-12", 300, 10, 50, 20, 70⟩]

/-- A token list with a Roll label and a seven-digit candidate. -/
def toksRoll : List Tok :=
  [⟨"Roll:", 10, 10, 50, 20, 90⟩, ⟨"1234567", 300, 10, 70, 20, 88⟩]

/-- A one-field extraction result, as the parser would build it. -/
def edSample : ExtractedData :=
  [("Contact", [("value", PyVal.vstr "555-1234"), ("confidence", PyVal.vint 70)])]

/-- One raw OCR fragment: four corners, padded text, confidence 0.95. -/
def fragSample : RawFrag :=
  ⟨[(10, 10), (70, 10), (70, 30), (10, 30)], " John ", mkRat 19 20⟩

/-! ### Helper lemmas: the scan, dicts, the parse table -/

theorem scanFrom_eq_some_iff {α : Type} [Inhabited α] (p : Nat → α → Bool) :
    ∀ (l : List α) (s i : Nat) (t : α),
      scanFrom p s l = some (i, t) ↔
        ∃ k, k < l.length ∧ i = s + k ∧ t = l.getD k default ∧
          p (s + k) (l.getD k default) = true ∧
          ∀ j, j < k → p (s + j) (l.getD j default) = false := by
  intro l
  induction l with
  | nil => intro s i t; simp [scanFrom]
  | cons a as ih =>
    intro s i t
    by_cases hp : p s a = true
    · rw [scanFrom, if_pos hp]
      constructor
      · intro h
        simp only [Option.some.injEq, Prod.mk.injEq] at h
        refine ⟨0, by simp, by omega, by simp [← h.2], by simpa using hp, by omega⟩
      · rintro ⟨k, hk, hi, ht, hpk, hmin⟩
        cases k with
        | zero =>
          simp only [Nat.add_zero, List.getD_cons_zero] at hi ht
          simp [hi, ht]
        | succ k' =>
          have h0 := hmin 0 (by omega)
          simp only [Nat.add_zero, List.getD_cons_zero] at h0
          rw [hp] at h0
          cases h0
    · rw [scanFrom, if_neg hp]
      have hp' : p s a = false := by
        revert hp; cases p s a <;> simp
      rw [ih (s + 1) i t]
      constructor
      · rintro ⟨k, hk, hi, ht, hpk, hmin⟩
        refine ⟨k + 1, by simpa using hk, by omega, by simpa using ht, ?_, ?_⟩
        · have hs : s + (k + 1) = s + 1 + k := by omega
          rw [hs, List.getD_cons_succ]
          exact hpk
        · intro j hj
          cases j with
          | zero => simpa using hp'
          | succ j' =>
            have := hmin j' (by omega)
            have hs : s + (j' + 1) = s + 1 + j' := by omega
            rw [hs, List.getD_cons_succ]
            exact this
      · rintro ⟨k, hk, hi, ht, hpk, hmin⟩
        cases k with
        | zero =>
          simp only [Nat.add_zero, List.getD_cons_zero] at hpk
          rw [hp'] at hpk
          cases hpk
        | succ k' =>
          refine ⟨k', by simpa using hk, by omega, by simpa using ht, ?_, ?_⟩
          · have hs : s + 1 + k' = s + (k' + 1) := by omega
            rw [hs]
            simpa using hpk
          · intro j hj
            have := hmin (j + 1) (by omega)
            have hs : s + (j + 1) = s + 1 + j := by omega
            rw [hs, List.getD_cons_succ] at this
            exact this

theorem scanFrom_eq_none_iff {α : Type} [Inhabited α] (p : Nat → α → Bool) :
    ∀ (l : List α) (s : Nat),
      scanFrom p s l = none ↔
        ∀ k, k < l.length → p (s + k) (l.getD k default) = false := by
  intro l
  induction l with
  | nil => intro s; simp [scanFrom]
  | cons a as ih =>
    intro s
    by_cases hp : p s a = true
    · rw [scanFrom, if_pos hp]
      constructor
      · intro h
        cases h
      · intro h
        exfalso
        have h0 := h 0 (by simp)
        simp only [Nat.add_zero, List.getD_cons_zero] at h0
        rw [hp] at h0
        simp at h0
    · rw [scanFrom, if_neg hp]
      have hp' : p s a = false := by
        revert hp; cases p s a <;> simp
      rw [ih (s + 1)]
      constructor
      · intro h k hk
        cases k with
        | zero => simpa using hp'
        | succ k' =>
          have := h k' (by simpa using hk)
          have hs : s + (k' + 1) = s + 1 + k' := by omega
          rw [hs, List.getD_cons_succ]
          exact this
      · intro h k hk
        have := h (k + 1) (by simpa using hk)
        have hs : s + (k + 1) = s + 1 + k := by omega
        rw [hs, List.getD_cons_succ] at this
        exact this


/-- Key-preserving in-place update of an association list: looking up
`k` sees the update exactly when `k` is the updated key. -/
theorem find_map_update {β : Type} (l : List (String × β)) (fname k : String)
    (g : β → β) :
    ((l.map (fun p => if p.1 = fname then (p.1, g p.2) else p)).find?
        (fun p => p.1 = k)).map Prod.snd =
      if k = fname then ((l.find? (fun p => p.1 = k)).map Prod.snd).map g
      else (l.find? (fun p => p.1 = k)).map Prod.snd := by
  induction l with
  | nil => by_cases h : k = fname <;> simp [h]
  | cons p ps ih =>
    simp only [List.map_cons]
    by_cases hpf : p.1 = fname
    · by_cases hpk : p.1 = k
      · have hk : k = fname := by rw [← hpk, hpf]
        rw [if_pos hpf, if_pos hk]
        rw [List.find?_cons_of_pos _ (by simpa using hpk),
            List.find?_cons_of_pos _ (by simpa using hpk)]
        simp
      · by_cases hk : k = fname
        · exact absurd (hpf.trans hk.symm) hpk
        · rw [if_pos hpf, if_neg hk]
          rw [List.find?_cons_of_neg _ (by simpa using hpk),
              List.find?_cons_of_neg _ (by simpa using hpk)]
          have := ih
          rw [if_neg hk] at this
          exact this
    · rw [if_neg hpf]
      by_cases hpk : p.1 = k
      · by_cases hk : k = fname
        · exact absurd (hpk.trans hk) hpf
        · rw [if_neg hk]
          rw [List.find?_cons_of_pos _ (by simpa using hpk),
              List.find?_cons_of_pos _ (by simpa using hpk)]
      · rw [List.find?_cons_of_neg _ (by simpa using hpk),
            List.find?_cons_of_neg _ (by simpa using hpk)]
        exact ih

/-- The in-place branch of `dictSet` is a key-preserving update. -/
theorem dictSet_exists_eq (d : PyDict) (k : String) (v : PyVal)
    (h : d.any (fun p => p.1 = k) = true) :
    dictSet d k v = d.map (fun p => if p.1 = k then (p.1, (fun _ => v) p.2) else p) := by
  rw [dictSet, if_pos h]
  apply List.map_congr_left
  intro p _
  by_cases hp : p.1 = k
  · simp [hp]
  · simp [hp]

theorem dictGet_dictSet_self (d : PyDict) (k : String) (v : PyVal) :
    dictGet (dictSet d k v) k = some v := by
  by_cases h : d.any (fun p => p.1 = k) = true
  · rw [dictSet_exists_eq d k v h, dictGet, find_map_update d k k (fun _ => v), if_pos rfl]
    have hsome : (d.find? (fun p => p.1 = k)).isSome := by
      rw [List.find?_isSome]
      simpa using h
    cases hfind : d.find? (fun p => p.1 = k) with
    | none => rw [hfind] at hsome; cases hsome
    | some q => simp
  · rw [dictSet, if_neg h]
    have hnone : d.find? (fun p => decide (p.1 = k)) = none := by
      rw [List.find?_eq_none]
      intro x hx
      simp only [List.any_eq_true, not_exists, not_and] at h
      intro hc
      simp only [decide_eq_true_eq] at hc
      exact absurd (by simpa [hc] using List.mem_map_of_mem id hx) (by
        simpa using fun hh => (by simpa [hc] using h x hx))
    rw [dictGet, List.find?_append, hnone]
    simp

theorem dictGet_dictSet_ne (d : PyDict) (k k' : String) (v : PyVal)
    (hne : k' ≠ k) : dictGet (dictSet d k v) k' = dictGet d k' := by
  by_cases h : d.any (fun p => p.1 = k) = true
  · rw [dictSet_exists_eq d k v h, dictGet, find_map_update d k k' (fun _ => v), if_neg hne]
    rfl
  · rw [dictSet, if_neg h, dictGet, List.find?_append]
    have hlast : List.find? (fun p => decide (p.1 = k')) [(k, v)] = none := by
      simp [Ne.symm hne]
    rw [hlast]
    cases hfind : d.find? (fun p => decide (p.1 = k')) <;> simp [dictGet, hfind]

/-- `editApply`-style update on the outer fields dict. -/
theorem edGet_map_update (data : ExtractedData) (fname : String)
    (g : PyDict → PyDict) (k : String) :
    edGet (data.map (fun p => if p.1 = fname then (p.1, g p.2) else p)) k =
      if k = fname then (edGet data k).map g else edGet data k :=
  find_map_update data fname k g

theorem pyInsertSorted_perm {α : Type} (le : α → α → Bool) (a : α) (l : List α) :
    (pyInsertSorted le a l).Perm (a :: l) := by
  induction l with
  | nil => simp [pyInsertSorted]
  | cons b bs ih =>
    by_cases h : le b a = true
    · rw [pyInsertSorted, if_pos h]
      exact (ih.cons b).trans (List.Perm.swap a b bs)
    · rw [pyInsertSorted, if_neg h]

theorem pySort_foldl_perm {α : Type} (le : α → α → Bool) :
    ∀ (l acc : List α),
      (l.foldl (fun acc a => pyInsertSorted le a acc) acc).Perm (acc ++ l) := by
  intro l
  induction l with
  | nil => intro acc; simp
  | cons a as ih =>
    intro acc
    rw [List.foldl_cons]
    refine (ih (pyInsertSorted le a acc)).trans ?_
    refine (((pyInsertSorted_perm le a acc).append_right as).trans ?_)
    simpa using (@List.perm_middle _ a acc as).symm

theorem pySort_perm {α : Type} (le : α → α → Bool) (l : List α) :
    (pySort le l).Perm l := by
  simpa using pySort_foldl_perm le l []

theorem pyInsertSorted_sorted {α : Type} (le : α → α → Bool)
    (htrans : ∀ a b c, le a b = true → le b c = true → le a c = true)
    (htot : ∀ a b, le a b = true ∨ le b a = true) (a : α) :
    ∀ (l : List α), l.Pairwise (fun x y => le x y = true) →
      (pyInsertSorted le a l).Pairwise (fun x y => le x y = true) := by
  intro l
  induction l with
  | nil => intro _; simp [pyInsertSorted]
  | cons b bs ih =>
    intro hl
    rcases List.pairwise_cons.mp hl with ⟨hb, hbs⟩
    by_cases h : le b a = true
    · rw [pyInsertSorted, if_pos h, List.pairwise_cons]
      refine ⟨?_, ih hbs⟩
      intro x hx
      have hx' := (pyInsertSorted_perm le a bs).mem_iff.mp hx
      rcases List.mem_cons.mp hx' with rfl | hx''
      · exact h
      · exact hb x hx''
    · have h' : le a b = true := by
        rcases htot a b with hh | hh
        · exact hh
        · exact absurd hh h
      rw [pyInsertSorted, if_neg h, List.pairwise_cons]
      refine ⟨?_, hl⟩
      intro x hx
      rcases List.mem_cons.mp hx with rfl | hx'
      · exact h'
      · exact htrans a b x h' (hb x hx')

theorem pySort_foldl_sorted {α : Type} (le : α → α → Bool)
    (htrans : ∀ a b c, le a b = true → le b c = true → le a c = true)
    (htot : ∀ a b, le a b = true ∨ le b a = true) :
    ∀ (l acc : List α), acc.Pairwise (fun x y => le x y = true) →
      (l.foldl (fun acc a => pyInsertSorted le a acc) acc).Pairwise
        (fun x y => le x y = true) := by
  intro l
  induction l with
  | nil => intro acc hacc; simpa using hacc
  | cons a as ih =>
    intro acc hacc
    rw [List.foldl_cons]
    exact ih _ (pyInsertSorted_sorted le htrans htot a acc hacc)

theorem pySort_sorted {α : Type} (le : α → α → Bool)
    (htrans : ∀ a b c, le a b = true → le b c = true → le a c = true)
    (htot : ∀ a b, le a b = true ∨ le b a = true) (l : List α) :
    (pySort le l).Pairwise (fun x y => le x y = true) :=
  pySort_foldl_sorted le htrans htot l [] (by simp)

theorem sortedFields_length (d : ExtractedData) :
    (sortedFields d).length = d.length :=
  (pySort_perm fieldLe d).length_eq

/-- Any field present in the parse result comes from a catalog entry of
that name whose label/value search succeeded with that very dict. -/
theorem parseCat_lookup_some :
    ∀ (cat : List (String × List String)) (toks : List Tok) (fname : String)
      (fd : PyDict),
      edGet (parseCat cat toks) fname = some fd →
        ∃ kws, (fname, kws) ∈ cat ∧ find_field_value fname kws toks = some fd := by
  intro cat
  induction cat with
  | nil => intro toks fname fd h; simp [parseCat, edGet] at h
  | cons e cat ih =>
    intro toks fname fd h
    obtain ⟨fn, kws⟩ := e
    rw [parseCat, List.filterMap_cons] at h
    cases hffv : find_field_value fn kws toks with
    | none =>
      rw [hffv] at h
      simp only [Option.map_none'] at h
      obtain ⟨kws', hmem, hffv'⟩ := ih toks fname fd h
      exact ⟨kws', List.mem_cons_of_mem _ hmem, hffv'⟩
    | some fd0 =>
      rw [hffv] at h
      simp only [Option.map_some'] at h
      by_cases he : fn = fname
      · subst he
        rw [edGet, List.find?_cons_of_pos _ (by simp)] at h
        simp only [Option.map_some'] at h
        exact ⟨kws, List.mem_cons_self _ _, by rw [hffv, h]⟩
      · rw [edGet, List.find?_cons_of_neg _ (by simpa using he)] at h
        obtain ⟨kws', hmem, hffv'⟩ := ih toks fname fd h
        exact ⟨kws', List.mem_cons_of_mem _ hmem, hffv'⟩

/-- Any field present in the full `parse` result comes from its
`FIELD_LABELS` entry. -/
theorem parse_lookup_some (toks : List Tok) (fname : String) (fd : PyDict)
    (h : edGet (parse toks) fname = some fd) :
    ∃ kws, (fname, kws) ∈ FIELD_LABELS ∧ find_field_value fname kws toks = some fd := by
  rw [parse] at h
  by_cases htoks : toks.isEmpty
  · rw [if_pos htoks] at h
    simp [edGet] at h
  · rw [if_neg htoks] at h
    exact parseCat_lookup_some FIELD_LABELS toks fname fd h

/-- The only `Roll Number` entry of the catalog. -/
theorem FIELD_LABELS_roll (kws : List String)
    (h : ("Roll Number", kws) ∈ FIELD_LABELS) :
    kws = ["roll", "enrollment", "roll number", "id"] := by
  simp only [FIELD_LABELS, List.mem_cons, List.not_mem_nil, or_false,
    Prod.mk.injEq] at h
  rcases h with ⟨h1, h2⟩ | ⟨h1, h2⟩ | ⟨h1, h2⟩ | ⟨h1, h2⟩ | ⟨h1, h2⟩ | ⟨h1, h2⟩ |
    ⟨h1, h2⟩ | ⟨h1, h2⟩ | ⟨h1, h2⟩ | ⟨h1, h2⟩ | ⟨h1, h2⟩ | ⟨h1, h2⟩ | ⟨h1, h2⟩ <;>
    first
      | exact h2
      | exact absurd h1 (by decide)

/-- Unfolding a successful `find_field_value` into its label search and
candidate scan. -/
theorem find_field_value_some (fname : String) (kws : List String)
    (toks : List Tok) (fd : PyDict)
    (h : find_field_value fname kws toks = some fd) :
    ∃ li, find_label kws toks = some li ∧
      ∃ k, k < toks.length ∧
        candPred fname li (toks.getD li default) k (toks.getD k default) = true ∧
        fd = mkFieldDict (toks.getD k default) ∧
        ∀ j, j < k →
          candPred fname li (toks.getD li default) j (toks.getD j default) = false := by
  rw [find_field_value] at h
  cases hfl : find_label kws toks with
  | none => rw [hfl] at h; cases h
  | some li =>
    rw [hfl] at h
    simp only [Option.some_bind] at h
    rw [associate] at h
    cases hscan : scanFrom (candPred fname li (toks.getD li default)) 0 toks with
    | none => rw [hscan] at h; cases h
    | some r =>
      rw [hscan] at h
      simp only [Option.map_some'] at h
      obtain ⟨i, t⟩ := r
      obtain ⟨k, hk, hi, ht, hp, hmin⟩ :=
        (scanFrom_eq_some_iff (candPred fname li (toks.getD li default)) toks 0 i t).mp hscan
      simp only [Nat.zero_add] at hi ht hp hmin
      refine ⟨li, rfl, k, hk, hp, ?_, hmin⟩
      simp only [Option.some.injEq] at h
      rw [← h, ← ht]

/-- A successful review phase emits a trace of zero or more Edit choices
followed by exactly one Accept choice. -/
theorem review_phase_some :
    ∀ (data : ExtractedData) (inputs : List String) (d : ExtractedData)
      (rest : List String) (evs : List PEvent),
      review_phase data inputs = (some (d, rest), evs) →
        ∃ pre, evs = pre ++ [PEvent.reviewChoice "accept"] ∧
          ∀ e ∈ pre, e = PEvent.reviewChoice "edit" := by
  intro data inputs
  induction data, inputs using review_phase.induct with
  | case1 data inputs hguc =>
    intro d rest evs h
    rw [review_phase, hguc] at h
    simp at h
  | case2 data inputs rest0 hguc =>
    intro d rest evs h
    rw [review_phase, hguc] at h
    simp only [reduceIte] at h
    rw [Prod.mk.injEq] at h
    refine ⟨[], ?_, by simp⟩
    rw [← h.2]
    simp
  | case3 data inputs rest0 hgfe hguc =>
    intro d rest evs h
    rw [review_phase, hguc] at h
    simp only [reduceIte] at h
    rw [hgfe] at h
    simp at h
  | case4 data inputs rest0 d2 rest2 hgfe res evs0 hrp hguc hne ih =>
    intro d rest evs h
    rw [review_phase, hguc] at h
    simp only [reduceIte] at h
    rw [hgfe] at h
    simp only [hrp, Prod.mk.injEq] at h
    obtain ⟨rfl, rfl⟩ := h
    obtain ⟨pre, hpre, hall⟩ := ih d rest evs0 hrp
    refine ⟨PEvent.reviewChoice "edit" :: pre, ?_, ?_⟩
    · rw [hpre]
      simp
    · intro e he
      rcases List.mem_cons.mp he with rfl | he'
      · rfl
      · exact hall e he'
  | case5 data inputs rest0 hguc h1 h2 =>
    intro d rest evs h
    rw [review_phase, hguc] at h
    simp only [reduceIte] at h
    simp at h
  | case6 data inputs c rest0 hguc h1 h2 h3 =>
    intro d rest evs h
    rw [review_phase, hguc] at h
    simp [h1, h2, h3] at h

/-- Every event the review phase emits is a review-prompt outcome; the
save event can only be appended later by the pipeline tail. -/
theorem review_phase_events_choices :
    ∀ (data : ExtractedData) (inputs : List String),
      ∀ e ∈ (review_phase data inputs).2, ∃ c, e = PEvent.reviewChoice c := by
  intro data inputs
  induction data, inputs using review_phase.induct with
  | case1 data inputs hguc =>
    intro e he
    rw [review_phase, hguc] at he
    simp at he
  | case2 data inputs rest0 hguc =>
    intro e he
    rw [review_phase, hguc] at he
    simp only [reduceIte] at he
    simp at he
    exact ⟨"accept", he⟩
  | case3 data inputs rest0 hgfe hguc =>
    intro e he
    rw [review_phase, hguc] at he
    simp only [reduceIte] at he
    rw [hgfe] at he
    simp at he
    exact ⟨"edit", he⟩
  | case4 data inputs rest0 d2 rest2 hgfe res evs0 hrp hguc hne ih =>
    intro e he
    rw [review_phase, hguc] at he
    simp only [reduceIte] at he
    rw [hgfe] at he
    simp only [hrp, List.mem_cons] at he
    cases he with
    | head => exact ⟨"edit", rfl⟩
    | tail _ he' => exact ih e (by rw [hrp]; exact he')
  | case5 data inputs rest0 hguc h1 h2 =>
    intro e he
    rw [review_phase, hguc] at he
    simp only [reduceIte] at he
    simp at he
    exact ⟨"cancel", he⟩
  | case6 data inputs c rest0 hguc h1 h2 h3 =>
    intro e he
    rw [review_phase, hguc] at he
    simp [h1, h2, h3] at he

/-- For a field type that misses the Name branch and hits the
contact/phone branch, a validated value uses only phone characters and
has at least seven digits. -/
theorem validate_contact_like (text fieldt : String)
    (hname : strContains fieldt "Name" = false)
    (hcontact : (["contact", "phone", "mobile", "number"].any
      (fun x => strContains (pyLower fieldt) x)) = true)
    (h : validate_value text fieldt = true) :
    (∀ c ∈ text.data, contactChar c = true) ∧
      7 ≤ text.data.countP (fun c => c.isDigit) := by
  rw [validate_value, hname, hcontact] at h
  simp only [Bool.false_eq_true, if_false, if_true] at h
  split at h
  · cases h
  · split at h
    · cases h
    · simp only [Bool.and_eq_true, decide_eq_true_eq, List.all_eq_true] at h
      exact ⟨h.1.2, h.2⟩

/-! ### The claims -/

/-- C4: for every sequence of confidence values and every threshold in
[0,100], the quality gate computes the arithmetic mean of the sequence
(0 if the sequence is empty) and rejects the batch exactly when the
mean is strictly below the threshold, accepting exactly when the mean
is greater than or equal to the threshold. -/
theorem C4_quality_gate_mean_threshold (confs : List Int) (threshold : ℚ)
    (h0 : 0 ≤ threshold) (h100 : threshold ≤ 100) :
    (quality_gate_rejects confs threshold = true ↔
      get_average_confidence confs < threshold) ∧
    (quality_gate_rejects confs threshold = false ↔
      threshold ≤ get_average_confidence confs) ∧
    get_average_confidence [] = 0 ∧
    (confs ≠ [] → get_average_confidence confs =
      (confs.sum : ℚ) / (confs.length : ℚ)) := by
  refine ⟨by simp [quality_gate_rejects], ?_, by simp [get_average_confidence], ?_⟩
  · rw [quality_gate_rejects]
    simp [not_lt]
  · intro hne
    rw [get_average_confidence, if_neg (by simpa using hne)]
    exact Rat.mkRat_eq_div _ _

/-- Witness for C4 at the default threshold 60 and confidences
[50, 70] (mean exactly 60, so the gate accepts). -/
theorem C4_quality_gate_mean_threshold_witness :
    (0 : ℚ) ≤ mkRat 60 1 ∧ mkRat 60 1 ≤ 100 ∧
    (quality_gate_rejects [50, 70] (mkRat 60 1) = false ↔
      mkRat 60 1 ≤ get_average_confidence [50, 70]) :=
  ⟨by decide, by decide,
    (C4_quality_gate_mean_threshold [50, 70] (mkRat 60 1)
      (by decide) (by decide)).2.1⟩

/-- C2: a token whose text satisfies the label predicate (colon suffix,
keyword-set membership, or short all-upper-case) is never returned as
the value of any extracted field, for any token list and any field. -/
theorem C2_label_never_value (toks : List Tok) (fname : String) (fd : PyDict)
    (v : String) (hlook : edGet (parse toks) fname = some fd)
    (hval : dictGet fd "value" = some (PyVal.vstr v)) :
    is_label_text v = false := by
  obtain ⟨kws, hmem, hffv⟩ := parse_lookup_some toks fname fd hlook
  obtain ⟨li, hfl, k, hk, hp, hfd, hmin⟩ :=
    find_field_value_some fname kws toks fd hffv
  rw [hfd, mkFieldDict, dictGet, List.find?_cons_of_pos _ (by simp)] at hval
  simp only [Option.map_some', Option.some.injEq, PyVal.vstr.injEq] at hval
  rw [candPred] at hp
  simp only [Bool.and_eq_true, Bool.not_eq_true'] at hp
  rw [← hval]
  exact hp.1.2

/-- Witness for C2: on the example token list the extracted Student
Name value is "John", which the theorem shows is not label-like. -/
theorem C2_label_never_value_witness :
    is_label_text "John" = false :=
  C2_label_never_value toksExample "Student Name"
    [("value", PyVal.vstr "John"), ("confidence", PyVal.vint 95)] "John"
    (by decide) (by decide)

/-- C7 counterexample: on the spec's example tokens the Student Name
label is located at index 0 (the token "Student", whose lower-cased
text is the keyword "student"), not at index 1 ("Name:") as claimed. -/
theorem C7_label_index_counterexample :
    find_label ["student", "name", "student name", "full name"] toksExample =
      some 0 ∧
    ¬ find_label ["student", "name", "student name", "full name"] toksExample =
      some 1 := by
  decide

/-- C7 amended: the Student Name label is located at index 0 (token
"Student"); the value associator still selects "John" as the first
qualifying token (the gap is measured from "Student"'s right edge 70,
so "Name:" at 75 is skipped and "John" at 400 qualifies), and the
extracted field is Student Name = value "John", confidence 95. -/
theorem C7_example_scenario :
    ("Student Name", ["student", "name", "student name", "full name"]) ∈
      FIELD_LABELS ∧
    find_label ["student", "name", "student name", "full name"] toksExample =
      some 0 ∧
    find_field_value "Student Name"
      ["student", "name", "student name", "full name"] toksExample =
      some [("value", PyVal.vstr "John"), ("confidence", PyVal.vint 95)] ∧
    edGet (parse toksExample) "Student Name" =
      some [("value", PyVal.vstr "John"), ("confidence", PyVal.vint 95)] := by
  decide

/-- C8: a Contact candidate passes validation only if it consists
solely of digits, spaces, hyphens, parentheses and plus signs and
contains at least seven digits; "555-12" (five digits) is rejected, and
on a token list containing a Contact label and the candidate "555-12"
the Contact field is absent from the extraction result. -/
theorem C8_contact_validator (text : String)
    (h : validate_value text "Contact" = true) :
    ((∀ c ∈ text.data, contactChar c = true) ∧
      7 ≤ text.data.countP (fun c => c.isDigit)) ∧
    validate_value "555-12" "Contact" = false ∧
    edGet (parse toksContact) "Contact" = none :=
  ⟨validate_contact_like text "Contact" (by decide) (by decide) h,
    by decide, by decide⟩

/-- Witness for C8 at the seven-digit candidate "5551234". -/
theorem C8_contact_validator_witness :
    validate_value "5551234" "Contact" = true ∧
    ((∀ c ∈ ("5551234" : String).data, contactChar c = true) ∧
      7 ≤ ("5551234" : String).data.countP (fun c => c.isDigit)) :=
  ⟨by decide, (C8_contact_validator "5551234" (by decide)).1⟩

/-- C10: because the validator dispatch tests lowercase substring
membership of contact/phone/mobile/number in the field name, the field
"Roll Number" is validated by the Contact/phone rule: any extracted
Roll Number value consists solely of digits, spaces, hyphens,
parentheses and plus signs and contains at least seven digits; a
five-digit ID and an alphanumeric ID both fail its validator. -/
theorem C10_roll_number_contact_rule (toks : List Tok) (fd : PyDict)
    (hlook : edGet (parse toks) "Roll Number" = some fd) :
    (∃ v c, fd = [("value", PyVal.vstr v), ("confidence", PyVal.vint c)] ∧
      (∀ ch ∈ v.data, contactChar ch = true) ∧
      7 ≤ v.data.countP (fun ch => ch.isDigit)) ∧
    validate_value "12345" "Roll Number" = false ∧
    validate_value "AB123" "Roll Number" = false := by
  refine ⟨?_, by decide, by decide⟩
  obtain ⟨kws, hmem, hffv⟩ := parse_lookup_some toks "Roll Number" fd hlook
  have hkws := FIELD_LABELS_roll kws hmem
  subst hkws
  obtain ⟨li, hfl, k, hk, hp, hfd, hmin⟩ :=
    find_field_value_some _ _ toks fd hffv
  refine ⟨(toks.getD k default).text, (toks.getD k default).confidence,
    by rw [hfd]; rfl, ?_⟩
  rw [candPred] at hp
  simp only [Bool.and_eq_true] at hp
  exact validate_contact_like _ "Roll Number" (by decide) (by decide) hp.2

/-- Witness for C10 on a token list with a Roll label and the
seven-digit candidate "1234567". -/
theorem C10_roll_number_contact_rule_witness :
    edGet (parse toksRoll) "Roll Number" =
      some [("value", PyVal.vstr "1234567"), ("confidence", PyVal.vint 88)] ∧
    (∃ v c, [("value", PyVal.vstr "1234567"), ("confidence", PyVal.vint 88)] =
        [("value", PyVal.vstr v), ("confidence", PyVal.vint c)] ∧
      (∀ ch ∈ v.data, contactChar ch = true) ∧
      7 ≤ v.data.countP (fun ch => ch.isDigit)) :=
  ⟨by decide,
    (C10_roll_number_contact_rule toksRoll
      [("value", PyVal.vstr "1234567"), ("confidence", PyVal.vint 88)]
      (by decide)).1⟩

/-- C3: given a located label, the value associator returns the value
text and confidence of the first token in scan order, other than the
label itself, that lies within 15 px vertically of the label's top, has
its left edge at least the label's right edge plus 120 px, is not
label-like, and passes the field validator; it returns none when no
token qualifies, and never prefers a later candidate over an earlier
qualifying one. -/
theorem C3_first_qualifying_candidate (fname : String) (kws : List String)
    (toks : List Tok) (li : Nat)
    (hfl : find_label kws toks = some li) :
    (∀ v c, associate fname toks li =
        some [("value", PyVal.vstr v), ("confidence", PyVal.vint c)] ↔
      ∃ i, i < toks.length ∧
        i ≠ li ∧
        ((toks.getD i default).top - (toks.getD li default).top).natAbs ≤ 15 ∧
        (toks.getD li default).left + (toks.getD li default).width + 120 ≤
          (toks.getD i default).left ∧
        is_label_text (toks.getD i default).text = false ∧
        validate_value (toks.getD i default).text fname = true ∧
        v = (toks.getD i default).text ∧
        c = (toks.getD i default).confidence ∧
        ∀ j, j < i →
          candPred fname li (toks.getD li default) j (toks.getD j default) =
            false) ∧
    (associate fname toks li = none ↔
      ∀ i, i < toks.length →
        candPred fname li (toks.getD li default) i (toks.getD i default) =
          false) := by
  constructor
  · intro v c
    rw [associate]
    constructor
    · intro h
      cases hscan : scanFrom (candPred fname li (toks.getD li default)) 0 toks with
      | none => rw [hscan] at h; cases h
      | some r =>
        rw [hscan] at h
        obtain ⟨i0, t⟩ := r
        obtain ⟨k, hk, hi0, ht, hp, hmin⟩ :=
          (scanFrom_eq_some_iff _ toks 0 i0 t).mp hscan
        simp only [Nat.zero_add] at hi0 ht hp hmin
        simp only [Option.map_some', mkFieldDict, Option.some.injEq,
          List.cons.injEq, Prod.mk.injEq, PyVal.vstr.injEq, PyVal.vint.injEq,
          true_and, and_true] at h
        subst ht
        rw [candPred] at hp
        simp only [Bool.and_eq_true, decide_eq_true_eq, Bool.not_eq_true'] at hp
        exact ⟨k, hk, hp.1.1.1.1, hp.1.1.1.2, hp.1.1.2, hp.1.2, hp.2,
          h.1.symm, h.2.symm, hmin⟩
    · rintro ⟨i, hi, hne, htop, hleft, hlab, hvalid, hv, hc, hmin⟩
      have hp : candPred fname li (toks.getD li default) i
          (toks.getD i default) = true := by
        rw [candPred]
        simp only [Bool.and_eq_true, decide_eq_true_eq, Bool.not_eq_true']
        exact ⟨⟨⟨⟨hne, htop⟩, hleft⟩, hlab⟩, hvalid⟩
      rw [(scanFrom_eq_some_iff (candPred fname li (toks.getD li default))
        toks 0 i (toks.getD i default)).mpr
        ⟨i, hi, (Nat.zero_add i).symm, rfl, by simpa using hp,
          by simpa using hmin⟩]
      simp [mkFieldDict, hv, hc]
  · rw [associate]
    constructor
    · intro h
      have hnone : scanFrom (candPred fname li (toks.getD li default)) 0 toks =
          none := by
        cases hscan : scanFrom (candPred fname li (toks.getD li default)) 0 toks with
        | none => rfl
        | some r => rw [hscan] at h; cases h
      have := (scanFrom_eq_none_iff _ toks 0).mp hnone
      intro i hi
      simpa using this i hi
    · intro h
      rw [(scanFrom_eq_none_iff _ toks 0).mpr (by simpa using h)]
      rfl

/-- Witness for C3 on the example tokens with the label located at
index 0: the characterization instantiates to the concrete winner
"John" with confidence 95 at index 2. -/
theorem C3_first_qualifying_candidate_witness :
    associate "Student Name" toksExample 0 =
      some [("value", PyVal.vstr "John"), ("confidence", PyVal.vint 95)] :=
  ((C3_first_qualifying_candidate "Student Name"
      ["student", "name", "student name", "full name"] toksExample 0
      (by decide)).1 "John" 95).mpr
    ⟨2, by decide, by decide, by decide, by decide, by decide, by decide,
      by decide, by decide, by decide⟩

/-- C9: in the Editing phase, a malformed selection (input that is not
the done sentinel and either fails integer parsing or selects a number
outside the displayed range) leaves the field map completely unchanged
and the session simply re-prompts on the remaining input; no default is
applied and no exception escapes. -/
theorem C9_malformed_selection_no_change (data : ExtractedData)
    (choiceRaw : String) (rest : List String)
    (hdone : pyLower (pyStrip choiceRaw) ≠ "done")
    (hsent : pyStrip choiceRaw ≠ toString ((sortedFields data).length + 1))
    (hbad : pyInt (pyStrip choiceRaw) = none ∨
      ∃ v, pyInt (pyStrip choiceRaw) = some v ∧
        (v < 1 ∨ ((sortedFields data).length : Int) < v)) :
    get_field_edits_loop data (choiceRaw :: rest) =
      get_field_edits_loop data rest := by
  rw [get_field_edits_loop, if_neg (by simp [hdone, hsent])]
  rcases hbad with hnone | ⟨v, hv, hrange⟩
  · rw [hnone]
  · have hno : ¬(0 ≤ v - 1 ∧ v - 1 < ((sortedFields data).length : Int)) := by
      rintro ⟨ha, hb⟩
      omega
    rw [hv]
    simp
    intro hge hlt
    exact absurd ⟨by omega, hlt⟩ hno

/-- Witness for C9: the non-numeric selection "abc" on a one-field map
just re-prompts. -/
theorem C9_malformed_selection_no_change_witness :
    get_field_edits_loop edSample ["abc", "done"] =
      get_field_edits_loop edSample ["done"] :=
  C9_malformed_selection_no_change edSample "abc" ["done"]
    (by decide) (by decide) (Or.inl (by decide))

/-- C5 counterexample: after a successful edit (field 1 selected, the
non-empty replacement "+1 555 123 4567" supplied) the stored field dict
has exactly a `value` and a `confidence` entry and no `edited` key at
all, so the claimed `edited` flag is not set to true (the code never
writes such a flag). -/
theorem C5_edited_flag_counterexample :
    get_field_edits_loop edSample ["1", "+1 555 123 4567", "done"] =
      some ([("Contact", [("value", PyVal.vstr "+1 555 123 4567"),
        ("confidence", PyVal.vint 100)])], []) ∧
    dictGet [("value", PyVal.vstr "+1 555 123 4567"),
      ("confidence", PyVal.vint 100)] "edited" = none ∧
    ¬ dictGet [("value", PyVal.vstr "+1 555 123 4567"),
      ("confidence", PyVal.vint 100)] "edited" = some (PyVal.vbool true) := by
  decide

/-- C5 amended: after any successful edit (a validly selected field and
a non-empty stripped replacement), the edit step rewrites exactly the
selected field: its `value` entry equals the stripped replacement text
and its `confidence` entry is exactly 100, regardless of the prior
confidence, and every other field is unchanged. The code stores no
`edited` flag, so that part of the original claim is dropped. -/
theorem C5_edit_pins_confidence (data : ExtractedData)
    (choiceRaw nvRaw : String) (rest : List String) (v : Int)
    (hdone : pyLower (pyStrip choiceRaw) ≠ "done")
    (hsent : pyStrip choiceRaw ≠ toString ((sortedFields data).length + 1))
    (hv : pyInt (pyStrip choiceRaw) = some v)
    (h1 : 1 ≤ v) (h2 : v ≤ ((sortedFields data).length : Int))
    (hnv : pyStrip nvRaw ≠ "") :
    get_field_edits_loop data (choiceRaw :: nvRaw :: rest) =
      get_field_edits_loop (editApply data (v - 1).toNat nvRaw) rest ∧
    (∀ fd, edGet data ((sortedFields data).getD (v - 1).toNat ("", [])).1 =
        some fd →
      edGet (editApply data (v - 1).toNat nvRaw)
          ((sortedFields data).getD (v - 1).toNat ("", [])).1 =
        some (dictSet (dictSet fd "value" (PyVal.vstr (pyStrip nvRaw)))
          "confidence" (PyVal.vint 100)) ∧
      dictGet (dictSet (dictSet fd "value" (PyVal.vstr (pyStrip nvRaw)))
          "confidence" (PyVal.vint 100)) "value" =
        some (PyVal.vstr (pyStrip nvRaw)) ∧
      dictGet (dictSet (dictSet fd "value" (PyVal.vstr (pyStrip nvRaw)))
          "confidence" (PyVal.vint 100)) "confidence" =
        some (PyVal.vint 100)) ∧
    (∀ k, k ≠ ((sortedFields data).getD (v - 1).toNat ("", [])).1 →
      edGet (editApply data (v - 1).toNat nvRaw) k = edGet data k) := by
  have hmap : editApply data (v - 1).toNat nvRaw =
      data.map (fun p =>
        if p.1 = ((sortedFields data).getD (v - 1).toNat ("", [])).1 then
          (p.1, (fun q => dictSet (dictSet q "value"
            (PyVal.vstr (pyStrip nvRaw))) "confidence" (PyVal.vint 100)) p.2)
        else p) := by
    rw [editApply, if_neg hnv]
  refine ⟨?_, ?_, ?_⟩
  · rw [get_field_edits_loop, if_neg (by simp [hdone, hsent]), hv]
    have hyes : 0 ≤ v - 1 ∧ v - 1 < ((sortedFields data).length : Int) :=
      ⟨by omega, by omega⟩
    simp [hyes]
  · intro fd hfd
    rw [hmap, edGet_map_update data _
      (fun q => dictSet (dictSet q "value" (PyVal.vstr (pyStrip nvRaw)))
        "confidence" (PyVal.vint 100)) _, if_pos rfl, hfd]
    refine ⟨rfl, ?_, ?_⟩
    · rw [dictGet_dictSet_ne _ _ _ _ (by decide), dictGet_dictSet_self]
    · rw [dictGet_dictSet_self]
  · intro k hk
    rw [hmap, edGet_map_update data _
      (fun q => dictSet (dictSet q "value" (PyVal.vstr (pyStrip nvRaw)))
        "confidence" (PyVal.vint 100)) _, if_neg hk]

/-- Witness for C5 (amended) on the one-field sample: selecting field 1
and replacing its value with "+1 555 123 4567" yields value
"+1 555 123 4567" and confidence exactly 100. -/
theorem C5_edit_pins_confidence_witness :
    get_field_edits_loop edSample ["1", "+1 555 123 4567", "done"] =
      get_field_edits_loop (editApply edSample 0 "+1 555 123 4567") ["done"] ∧
    edGet (editApply edSample 0 "+1 555 123 4567") "Contact" =
      some [("value", PyVal.vstr "+1 555 123 4567"),
        ("confidence", PyVal.vint 100)] := by
  have h := C5_edit_pins_confidence edSample "1" "+1 555 123 4567" ["done"] 1
    (by decide) (by decide) (by decide) (by decide) (by decide) (by decide)
  exact ⟨h.1, by decide⟩

/-- Truncating `q * 100` for a confidence `q` in [0,1] lands in 0-100. -/
theorem pyTrunc100_bounds (q : ℚ) (h0 : 0 ≤ q) (h1 : q ≤ 1) :
    0 ≤ pyTrunc100 q ∧ pyTrunc100 q ≤ 100 := by
  rw [pyTrunc100]
  have hden : 0 < (q.den : Int) := by exact_mod_cast q.pos
  have hnum : 0 ≤ q.num := Rat.num_nonneg.mpr h0
  have hnum100 : 0 ≤ q.num * 100 := by positivity
  constructor
  · exact Int.tdiv_nonneg hnum100 (le_of_lt hden)
  · have hle : q.num ≤ (q.den : Int) := by
      have := Rat.le_def.mp h1
      simpa using this
    rw [Int.tdiv_eq_ediv hnum100 (le_of_lt hden)]
    have hmul : q.num * 100 ≤ (q.den : Int) * 100 :=
      mul_le_mul_of_nonneg_right hle (by norm_num)
    calc (q.num * 100) / (q.den : Int)
        ≤ ((q.den : Int) * 100) / (q.den : Int) := Int.ediv_le_ediv hden hmul
      _ = 100 := by
          rw [Int.mul_ediv_cancel_left _ (by omega)]

theorem tokLe_trans : ∀ a b c : Tok,
    tokLe a b = true → tokLe b c = true → tokLe a c = true := by
  intro a b c hab hbc
  rw [tokLe] at *
  simp only [Bool.or_eq_true, Bool.and_eq_true, decide_eq_true_eq] at *
  omega

theorem tokLe_total : ∀ a b : Tok, tokLe a b = true ∨ tokLe b a = true := by
  intro a b
  rw [tokLe, tokLe]
  simp only [Bool.or_eq_true, Bool.and_eq_true, decide_eq_true_eq]
  omega

/-- C6: for every raw fragment list (confidences in [0,1], non-empty
corner lists), every token the index outputs has an integer confidence
in 0-100 obtained by scaling, carries the axis-aligned box of its
fragment's corner minima and maxima and that fragment's stripped text;
no output token has empty text or non-positive confidence (those
fragments are discarded); and the output is sorted by (top, left)
ascending. -/
theorem C6_token_index_contract (frags : List RawFrag)
    (hconf : ∀ f ∈ frags, 0 ≤ f.conf ∧ f.conf ≤ 1)
    (hbox : ∀ f ∈ frags, f.bbox ≠ []) :
    (∀ t ∈ extract_ocr_data frags, 0 ≤ t.confidence ∧ t.confidence ≤ 100) ∧
    (∀ t ∈ extract_ocr_data frags, ∃ f ∈ frags,
      t.text = pyStrip f.text ∧
      t.left = listMinI (f.bbox.map Prod.fst) ∧
      t.top = listMinI (f.bbox.map Prod.snd) ∧
      t.width = listMaxI (f.bbox.map Prod.fst) -
        listMinI (f.bbox.map Prod.fst) ∧
      t.height = listMaxI (f.bbox.map Prod.snd) -
        listMinI (f.bbox.map Prod.snd) ∧
      t.confidence = pyTrunc100 f.conf) ∧
    (∀ t ∈ extract_ocr_data frags, t.text ≠ "" ∧ 0 < t.confidence) ∧
    List.Pairwise (fun a b => a.top < b.top ∨ (a.top = b.top ∧ a.left ≤ b.left))
      (extract_ocr_data frags) := by
  have hmem : ∀ t ∈ extract_ocr_data frags,
      (∃ f ∈ frags, t = mkDetection f) ∧ (0 < t.confidence ∧ t.text ≠ "") := by
    intro t ht
    rw [extract_ocr_data] at ht
    by_cases hemp : frags.isEmpty
    · rw [if_pos hemp] at ht
      simp at ht
    · rw [if_neg hemp] at ht
      rw [List.mem_filter] at ht
      obtain ⟨hsort, hpred⟩ := ht
      have hmap : t ∈ frags.map mkDetection :=
        (pySort_perm tokLe (frags.map mkDetection)).mem_iff.mp hsort
      obtain ⟨f, hf, hft⟩ := List.mem_map.mp hmap
      simp only [Bool.and_eq_true, decide_eq_true_eq] at hpred
      exact ⟨⟨f, hf, hft.symm⟩, hpred.1, hpred.2⟩
  refine ⟨?_, ?_, ?_, ?_⟩
  · intro t ht
    obtain ⟨⟨f, hf, hft⟩, _⟩ := hmem t ht
    rw [hft]
    exact pyTrunc100_bounds f.conf (hconf f hf).1 (hconf f hf).2
  · intro t ht
    obtain ⟨⟨f, hf, hft⟩, _⟩ := hmem t ht
    exact ⟨f, hf, by rw [hft, mkDetection], by rw [hft, mkDetection],
      by rw [hft, mkDetection], by rw [hft, mkDetection],
      by rw [hft, mkDetection], by rw [hft, mkDetection]⟩
  · intro t ht
    obtain ⟨_, hpos, hne⟩ := hmem t ht
    exact ⟨hne, hpos⟩
  · rw [extract_ocr_data]
    by_cases hemp : frags.isEmpty
    · rw [if_pos hemp]
      exact List.Pairwise.nil
    · rw [if_neg hemp]
      refine List.Pairwise.filter _ ?_
      refine List.Pairwise.imp ?_
        (pySort_sorted tokLe tokLe_trans tokLe_total (frags.map mkDetection))
      intro a b hab
      rw [tokLe] at hab
      simp only [Bool.or_eq_true, Bool.and_eq_true, decide_eq_true_eq] at hab
      exact hab

/-- Witness for C6 on a single fragment with corners spanning a 60x20
box, padded text " John " and confidence 0.95: the output token is
("John", 10, 10, 60, 20, 95) with bounds as stated. -/
theorem C6_token_index_contract_witness :
    (∀ f ∈ [fragSample], 0 ≤ f.conf ∧ f.conf ≤ 1) ∧
    extract_ocr_data [fragSample] =
      [⟨"John", 10, 10, 60, 20, 95⟩] ∧
    (∀ t ∈ extract_ocr_data [fragSample],
      0 ≤ t.confidence ∧ t.confidence ≤ 100) :=
  ⟨by decide, by decide,
    (C6_token_index_contract [fragSample] (by decide) (by decide)).1⟩

/-- C1: in the review loop, `DataSaver.save` is invoked only after the
operator explicitly chose Accept at the review prompt — whenever a save
event occurs, the event trace consists of Edit choices, then the Accept
choice, then the save; and if the operator chose Cancel at any review
point, no save event ever occurs for that ExtractionResult. -/
theorem C1_save_only_after_accept (data : ExtractedData)
    (inputs : List String) (d : ExtractedData) :
    (PEvent.saveInvoked d ∈ pipeline_after_review data inputs →
      ∃ pre, pipeline_after_review data inputs =
        pre ++ [PEvent.reviewChoice "accept", PEvent.saveInvoked d] ∧
        ∀ e ∈ pre, e = PEvent.reviewChoice "edit") ∧
    (PEvent.reviewChoice "cancel" ∈ pipeline_after_review data inputs →
      PEvent.saveInvoked d ∉ pipeline_after_review data inputs) := by
  have hno_save : ∀ e ∈ (review_phase data inputs).2,
      e ≠ PEvent.saveInvoked d := by
    intro e he
    obtain ⟨c, rfl⟩ := review_phase_events_choices data inputs e he
    simp
  rw [pipeline_after_review]
  cases hrp : review_phase data inputs with
  | mk res evs =>
    rw [hrp] at hno_save
    cases res with
    | none =>
      dsimp only
      exact ⟨fun hsave => absurd rfl (hno_save _ hsave),
        fun _ hsave => (hno_save _ hsave) rfl⟩
    | some p =>
      obtain ⟨d0, rest⟩ := p
      obtain ⟨pre, hpre, hall⟩ := review_phase_some data inputs d0 rest evs hrp
      dsimp only
      cases hfmt : get_output_format rest with
      | none =>
        dsimp only
        exact ⟨fun hsave => absurd rfl (hno_save _ hsave),
          fun _ hsave => (hno_save _ hsave) rfl⟩
      | some fo =>
        obtain ⟨ofmt, rest2⟩ := fo
        cases ofmt with
        | none =>
          dsimp only
          exact ⟨fun hsave => absurd rfl (hno_save _ hsave),
            fun _ hsave => (hno_save _ hsave) rfl⟩
        | some fmt =>
          cases rest2 with
          | nil =>
            dsimp only
            exact ⟨fun hsave => absurd rfl (hno_save _ hsave),
              fun _ hsave => (hno_save _ hsave) rfl⟩
          | cons a rest3 =>
            dsimp only
            constructor
            · intro hsave
              rw [List.mem_append] at hsave
              rcases hsave with hin | hin
              · exact absurd rfl (hno_save _ hin)
              · simp only [List.mem_singleton, PEvent.saveInvoked.injEq] at hin
                subst hin
                refine ⟨pre, ?_, hall⟩
                rw [hpre]
                simp
            · intro hcancel
              exfalso
              rw [List.mem_append] at hcancel
              rcases hcancel with hin | hin
              · rw [hpre, List.mem_append] at hin
                rcases hin with hin | hin
                · have := hall _ hin
                  simp at this
                · simp at hin
              · simp at hin

/-- Witness for C1: with operator inputs Accept, format 1 (Excel) and a
filename, the pipeline's event trace is exactly the Accept choice
followed by the save of the reviewed data. -/
theorem C1_save_only_after_accept_witness :
    PEvent.saveInvoked edSample ∈
      pipeline_after_review edSample ["A", "1", "file"] ∧
    ∃ pre, pipeline_after_review edSample ["A", "1", "file"] =
      pre ++ [PEvent.reviewChoice "accept", PEvent.saveInvoked edSample] ∧
      ∀ e ∈ pre, e = PEvent.reviewChoice "edit" := by
  have heval : pipeline_after_review edSample ["A", "1", "file"] =
      [PEvent.reviewChoice "accept", PEvent.saveInvoked edSample] := by
    rw [pipeline_after_review]
    rw [show review_phase edSample ["A", "1", "file"] =
        (some (edSample, ["1", "file"]), [PEvent.reviewChoice "accept"]) from by
      rw [review_phase]
      rw [show get_user_confirmation ["A", "1", "file"] =
        some ("accept", ["1", "file"]) from by decide]
      simp]
    dsimp only
    rw [show get_output_format ["1", "file"] =
      some (some "excel", ["file"]) from by decide]
    rfl
  refine ⟨by rw [heval]; simp, ?_⟩
  exact (C1_save_only_after_accept edSample ["A", "1", "file"] edSample).1
    (by rw [heval]; simp)
